import Mathlib

/-!
# Verification of the smaps-poller core (lib.rs / main.rs)

Shallow embedding of the two-stage pipeline of the repository:
process enumeration and tree linking / selection (`get_processes`),
and per-process mapping classification (`get_smaps`), together with
the shared error-filter policy (`filter_errors`) and the `Add`
implementation on `MemoryExt`.

Modelling conventions:
* Rust `u64` values are modelled as `Nat` (the claims under study are
  independent of wrap-around).
* Rust `HashMap<K, u64>` accumulators are modelled as total functions
  `K → Nat` with default value `0`; `entry(k).or_default() += v` is the
  pointwise update, and a missing key is indistinguishable from a key
  mapped to `0`, exactly as for the accumulating uses in the source.
* `HashSet<usize>` is modelled as `Finset ℕ`.
* `panic!` is modelled as the `none` / `.panic` outcome of the function.
* `warn!` side effects are modelled by an explicit count of emitted
  warnings, returned next to the ordinary result.
* `regex::Regex::is_match` is abstracted as a function `String → Bool`.
* `PathBuf` is modelled as `String`.
-/

/-- `procfs::ProcError` (the variants the source distinguishes: the two
matched constructors carry their `Option<PathBuf>` payload, every other
variant is collapsed into `io`/`other`, which the source treats
uniformly via its catch-all arms). -/
inductive ProcError where
  | permissionDenied (path : Option String)
  | notFound (path : Option String)
  | incomplete (path : Option String)
  | io (msg : String) (path : Option String)
  | other (msg : String)
deriving DecidableEq, Repr

/-- `procfs::process::MMPermissions` bit-flags, as one Boolean per flag. -/
structure MMPermissions where
  read : Bool
  write : Bool
  execute : Bool
  shared : Bool
  priv : Bool
deriving DecidableEq, Repr

/-- `procfs::process::MMapPath`. -/
inductive MMapPath where
  | Path (p : String)
  | Heap
  | Stack
  | TStack (tid : Int)
  | Anonymous
  | Vdso
  | Vvar
  | Vsyscall
  | Rollup
  | Vsys (key : Int)
  | Other (s : String)
deriving DecidableEq, Repr

/-- One entry of a process's smaps table: `pathname`, `perms` and the
`extension.map` of named numeric fields (`HashMap<String, u64>`,
modelled as an association list consulted with `List.lookup`). -/
structure MemoryMap where
  pathname : MMapPath
  perms : MMPermissions
  extMap : List (String × Nat)
deriving DecidableEq, Repr

/-- `MemoryExt` of lib.rs: twelve scalar PSS accumulators plus the two
keyed accumulators `file_map` and `other_map`. -/
structure MemoryExt where
  stack_pss : Nat
  heap_pss : Nat
  thread_stack_pss : Nat
  file_map : (String × MMPermissions) → Nat
  bin_text_pss : Nat
  lib_text_pss : Nat
  bin_data_pss : Nat
  lib_data_pss : Nat
  anon_map_pss : Nat
  vdso_pss : Nat
  vvar_pss : Nat
  vsyscall_pss : Nat
  vsys_pss : Nat
  other_map : String → Nat

/-- `MemoryExt::new()` (= `MemoryExt::default()`): all accumulators zero. -/
def MemoryExt.new : MemoryExt :=
  { stack_pss := 0, heap_pss := 0, thread_stack_pss := 0
    file_map := fun _ => 0
    bin_text_pss := 0, lib_text_pss := 0, bin_data_pss := 0, lib_data_pss := 0
    anon_map_pss := 0, vdso_pss := 0, vvar_pss := 0, vsyscall_pss := 0
    vsys_pss := 0
    other_map := fun _ => 0 }

/-- `add_maps` of lib.rs: for every key of `rhs`, add its value onto the
`lhs` entry (default 0).  On the total-function model this is pointwise
addition (keys absent from `rhs` contribute `0`). -/
def add_maps {κ : Type} (lhs rhs : κ → Nat) : κ → Nat :=
  fun k => lhs k + rhs k

/-- `impl Add<&MemoryExt> for MemoryExt` of lib.rs, field by field,
including the source's `vsyscall_pss: self.vsyscall_pss + rhs.vvar_pss`
(lib.rs line 114). -/
def MemoryExt.add (a b : MemoryExt) : MemoryExt where
  stack_pss := a.stack_pss + b.stack_pss
  heap_pss := a.heap_pss + b.heap_pss
  thread_stack_pss := a.thread_stack_pss + b.thread_stack_pss
  file_map := add_maps a.file_map b.file_map
  bin_text_pss := a.bin_text_pss + b.bin_text_pss
  lib_text_pss := a.lib_text_pss + b.lib_text_pss
  bin_data_pss := a.bin_data_pss + b.bin_data_pss
  lib_data_pss := a.lib_data_pss + b.lib_data_pss
  anon_map_pss := a.anon_map_pss + b.anon_map_pss
  vdso_pss := a.vdso_pss + b.vdso_pss
  vvar_pss := a.vvar_pss + b.vvar_pss
  vsyscall_pss := a.vsyscall_pss + b.vvar_pss
  vsys_pss := a.vsys_pss + b.vsys_pss
  other_map := add_maps a.other_map b.other_map

/-- `filter_errors` of lib.rs.  Second component: number of `warn!`
messages emitted.  `PermissionDenied` is re-wrapped exactly as in the
source; `NotFound(Some(path))` warns and drops; everything else is
passed through. -/
def filterErrors {α : Type} (result : Except ProcError α) (fail_on_noperm : Bool) :
    Option (Except ProcError α) × Nat :=
  match result with
  | .error (.permissionDenied e) =>
      if fail_on_noperm then (some (.error (.permissionDenied e)), 0) else (none, 0)
  | .error (.notFound (some _)) => (none, 1)
  | other => (some other, 0)

/-- Test used by the first `if let` of main.rs's `filter_errors`. -/
def isErrPermissionDenied {α : Type} (r : Except ProcError α) : Bool :=
  match r with
  | .error (.permissionDenied _) => true
  | _ => false

/-- Payload extraction of the second `if let` of main.rs's
`filter_errors` (`Err(NotFound(Some(pathbuf)))`). -/
def errNotFoundPath {α : Type} (r : Except ProcError α) : Option String :=
  match r with
  | .error (.notFound (some p)) => some p
  | _ => none

/-- `filter_errors` of main.rs: the same policy written as an
`if let` chain returning `Some(result)` unchanged. -/
def filterErrorsMain {α : Type} (result : Except ProcError α) (fail_on_noperm : Bool) :
    Option (Except ProcError α) × Nat :=
  if isErrPermissionDenied result then
    if fail_on_noperm then (some result, 0) else (none, 0)
  else
    match errNotFoundPath result with
    | some _ => (none, 1)
    | none => (some result, 0)

instance exceptDecEq {ε α : Type} [DecidableEq ε] [DecidableEq α] :
    DecidableEq (Except ε α)
  | .ok a, .ok b =>
      if h : a = b then .isTrue (by rw [h])
      else .isFalse (by intro he; cases he; exact h rfl)
  | .ok _, .error _ => .isFalse (by intro h; cases h)
  | .error _, .ok _ => .isFalse (by intro h; cases h)
  | .error e, .error f =>
      if h : e = f then .isTrue (by rw [h])
      else .isFalse (by intro he; cases he; exact h rfl)

/-- `ProcNode` of lib.rs.  The abstract `process: Process` handle is
represented by the outcomes of the two reads `get_smaps` later performs
on it (`process.smaps()` and `process.exe()`), which is all the core
ever does with the handle. -/
structure ProcNode where
  pid : Int
  ppid : Int
  cmdline : String
  smapsResult : Except ProcError (List MemoryMap)
  exeResult : Except ProcError String
  children : List Nat
deriving DecidableEq, Repr

/-- Result of `process.stat()`: the fields the source reads. -/
structure Stat where
  pid : Int
  ppid : Int
deriving DecidableEq, Repr

/-- One live process as visible to the enumerator: the outcomes of the
per-process reads the source can perform on its `Process` handle. -/
structure SourceProc where
  statResult : Except ProcError Stat
  cmdlineResult : Except ProcError (List String)
  smapsResult : Except ProcError (List MemoryMap)
  exeResult : Except ProcError String
deriving DecidableEq, Repr

/-- `ProcNode::try_from_process` of lib.rs: read `stat`, return
`Ok(None)` for the caller's own process unless `convert_self`, else
read and join the command line and build the node (`children` empty).
`me` is `std::process::id()`. -/
def tryFromProcess (sp : SourceProc) (me : Int) (convert_self : Bool) :
    Except ProcError (Option ProcNode) :=
  match sp.statResult with
  | .error e => .error e
  | .ok stat =>
    if !convert_self && stat.pid == me then .ok none
    else
      match sp.cmdlineResult with
      | .error e => .error e
      | .ok cl =>
          .ok (some { pid := stat.pid, ppid := stat.ppid
                      cmdline := String.intercalate " " cl
                      smapsResult := sp.smapsResult, exeResult := sp.exeResult
                      children := [] })

/-- `Result<Option<T>, E>::transpose()`. -/
def transposeResult {α : Type} : Except ProcError (Option α) → Option (Except ProcError α)
  | .ok none => none
  | .ok (some a) => some (.ok a)
  | .error e => some (.error e)

/-- The per-process closure of lib.rs `get_processes`'s `filter_map`:
convert the process (`try_from_process`), transpose, and pass the result
through `filter_errors`. -/
def libEnumStep (pr : Except ProcError SourceProc) (me : Int)
    (match_self fail_on_noperm : Bool) : Option (Except ProcError ProcNode) × Nat :=
  match transposeResult (pr.bind fun sp => tryFromProcess sp me match_self) with
  | none => (none, 0)
  | some r => filterErrors r fail_on_noperm

/-- The enumeration stage of lib.rs `get_processes`: `filter_map` over
all processes collected into `ProcResult<Vec<_>>` (first error wins and
stops the iteration), with the total `warn!` count alongside. -/
def libEnumerate (prs : List (Except ProcError SourceProc)) (me : Int)
    (match_self fail_on_noperm : Bool) : Except ProcError (List ProcNode) × Nat :=
  match prs with
  | [] => (.ok [], 0)
  | pr :: rest =>
    match libEnumStep pr me match_self fail_on_noperm with
    | (none, w) =>
        let r := libEnumerate rest me match_self fail_on_noperm
        (r.1, w + r.2)
    | (some (.error e), w) => (.error e, w)
    | (some (.ok n), w) =>
        let r := libEnumerate rest me match_self fail_on_noperm
        match r.1 with
        | .ok ns => (.ok (n :: ns), w + r.2)
        | .error e => (.error e, w + r.2)

/-- In-place update of one list element (`proc_tree[p] = ...`); out of
range leaves the list unchanged (the source would panic, but every
index the linker uses is in range). -/
def modifyIdx {α : Type} : List α → Nat → (α → α) → List α
  | [], _, _ => []
  | x :: xs, 0, f => f x :: xs
  | x :: xs, n + 1, f => x :: modifyIdx xs n f

/-- `proc_tree[parent_idx].children.push(idx)`. -/
def pushChild (idx : Nat) (n : ProcNode) : ProcNode :=
  { n with children := n.children ++ [idx] }

/-- `proc_tree.iter().enumerate().map(|(i, proc_node)| (proc_node.pid, i))`
starting from index `start`. -/
def procMapPairsAux : Nat → List ProcNode → List (Int × Nat)
  | _, [] => []
  | i, n :: ns => (n.pid, i) :: procMapPairsAux (i + 1) ns

/-- The key/value sequence the pid→index `HashMap` is built from. -/
def procMapPairs (nodes : List ProcNode) : List (Int × Nat) :=
  procMapPairsAux 0 nodes

/-- Lookup in `HashMap::from_iter(pairs)`: the *last* binding of a key
wins, as later insertions overwrite earlier ones. -/
def lookupLast : List (Int × Nat) → Int → Option Nat
  | [], _ => none
  | (k, v) :: rest, key =>
    match lookupLast rest key with
    | some r => some r
    | none => if k == key then some v else none

/-- The linking loop of `get_processes`: for every index in order, if
the node's `ppid` is not the root sentinel `0`, look its parent up in
the pid→index map and push the index onto the parent's `children`.
`none` models the `panic!` on a missing parent pid. -/
def linkAux (pm : Int → Option Nat) : List Nat → List ProcNode → Option (List ProcNode)
  | [], tree => some tree
  | idx :: rest, tree =>
    match tree.get? idx with
    | none => none
    | some node =>
      if node.ppid ≠ 0 then
        match pm node.ppid with
        | none => none
        | some parent_idx => linkAux pm rest (modifyIdx tree parent_idx (pushChild idx))
      else linkAux pm rest tree

/-- The tree-linking stage of `get_processes` (lib.rs lines 173–186):
build the pid→index map, then run the loop over `0..proc_tree.len()`. -/
def link (nodes : List ProcNode) : Option (List ProcNode) :=
  linkAux (lookupLast (procMapPairs nodes)) (List.range nodes.length) nodes

/-- `proc_tree[i].children` (empty when out of range). -/
def childrenOf (tree : List ProcNode) (i : Nat) : List Nat :=
  ((tree.get? i).map ProcNode.children).getD []

/-- `add_process_recursive` of `get_processes`: insert the index, then
recurse into its children.  The source recursion is unbounded; `fuel`
bounds the recursion depth and is instantiated with `tree.length`,
which is enough for every acyclic linked tree. -/
def addProcessRecursive (tree : List ProcNode) : Nat → Finset ℕ → Nat → Finset ℕ
  | 0, matched, idx => insert idx matched
  | fuel + 1, matched, idx =>
      (childrenOf tree idx).foldl
        (fun m j => addProcessRecursive tree fuel m j) (insert idx matched)

/-- The matching loop of `get_processes`: for every node (in order)
whose cmdline matches, insert it, and with `match_children` also all
its transitive children. -/
def getMatched (tree : List ProcNode) (pat : String → Bool) (match_children : Bool) :
    Finset ℕ :=
  tree.enum.foldl
    (fun matched p =>
      if pat p.2.cmdline then
        if match_children then addProcessRecursive tree tree.length matched p.1
        else insert p.1 matched
      else matched) ∅

/-- The final `filter_map` of `get_processes`: keep (in order) the nodes
whose index is in the matched set. -/
def selectMatched (tree : List ProcNode) (matched : Finset ℕ) : List ProcNode :=
  tree.enum.filterMap (fun p => if p.1 ∈ matched then some p.2 else none)

/-- `get_processes` from the enumerated node sequence on: return all
nodes when no pattern is given; otherwise link the tree, compute the
matched set and filter.  `none` models the linking `panic!`. -/
def selectProcesses (nodes : List ProcNode) (pat : Option (String → Bool))
    (match_children : Bool) : Option (List ProcNode) :=
  match pat with
  | none => some nodes
  | some p =>
      (link nodes).map fun tree => selectMatched tree (getMatched tree p match_children)

/-- The child-edge relation of a linked tree: `j` occurs in
`tree[i].children`. -/
def ChildEdge (tree : List ProcNode) (i j : Nat) : Prop :=
  j ∈ childrenOf tree i

/-- Outcome of `get_pss_or_warn`: the PSS value to use together with the
number of warnings emitted, or the `panic!`. -/
inductive PssOutcome where
  | ok (pss : Nat) (warnings : Nat)
  | fatal
deriving DecidableEq, Repr

/-- `get_pss_or_warn` of `get_smaps` (lib.rs lines 242–262): use `Pss`
when present; else `Rss = 0` gives `0` with a warning, nonzero `Rss` is
fatal, and no `Rss` gives `0` with a warning. -/
def getPssOrWarn (m : MemoryMap) : PssOutcome :=
  match m.extMap.lookup "Pss" with
  | some pss => .ok pss 0
  | none =>
    match m.extMap.lookup "Rss" with
    | some rss => if rss = 0 then .ok 0 1 else .fatal
    | none => .ok 0 1

/-- `true` exactly for the `MMapPath` variants that reach the catch-all
`_` arm of the classifier's `match` (every named variant of the source
is listed explicitly, so only `Rollup` remains). -/
def unknownTag : MMapPath → Bool
  | .Rollup => true
  | _ => false

/-- The per-mapping body of `get_smaps`'s `for map in maps` loop:
classify one mapping and accumulate its resolved PSS.  Result: the
updated `MemoryExt` and the warnings emitted, or `none` for a
`panic!`. -/
def processMap (ext : MemoryExt) (exe : String) (m : MemoryMap) :
    Option (MemoryExt × Nat) :=
  match m.pathname with
  | .Path p =>
    match getPssOrWarn m with
    | .fatal => none
    | .ok pss w =>
      let ext1 := { ext with
        file_map := fun k => if k = (p, m.perms) then ext.file_map k + pss else ext.file_map k }
      let is_self := exe == p
      let is_x := m.perms.execute
      let ext2 :=
        match is_self, is_x with
        | true, true => { ext1 with bin_text_pss := ext1.bin_text_pss + pss }
        | true, false => { ext1 with bin_data_pss := ext1.bin_data_pss + pss }
        | false, true => { ext1 with lib_text_pss := ext1.lib_text_pss + pss }
        | false, false => { ext1 with lib_data_pss := ext1.lib_data_pss + pss }
      some (ext2, w)
  | .Heap =>
    match getPssOrWarn m with
    | .fatal => none
    | .ok pss w => some ({ ext with heap_pss := ext.heap_pss + pss }, w)
  | .Stack =>
    match getPssOrWarn m with
    | .fatal => none
    | .ok pss w => some ({ ext with stack_pss := ext.stack_pss + pss }, w)
  | .TStack _ =>
    match getPssOrWarn m with
    | .fatal => none
    | .ok pss w => some ({ ext with thread_stack_pss := ext.thread_stack_pss + pss }, w)
  | .Anonymous =>
    match getPssOrWarn m with
    | .fatal => none
    | .ok pss w => some ({ ext with anon_map_pss := ext.anon_map_pss + pss }, w)
  | .Vdso =>
    match getPssOrWarn m with
    | .fatal => none
    | .ok pss w => some ({ ext with vdso_pss := ext.vdso_pss + pss }, w)
  | .Vvar =>
    match getPssOrWarn m with
    | .fatal => none
    | .ok pss w => some ({ ext with vvar_pss := ext.vvar_pss + pss }, w)
  | .Vsyscall =>
    match getPssOrWarn m with
    | .fatal => none
    | .ok pss w => some ({ ext with vsyscall_pss := ext.vsyscall_pss + pss }, w)
  | .Vsys _ =>
    match getPssOrWarn m with
    | .fatal => none
    | .ok pss w => some ({ ext with vsys_pss := ext.vsys_pss + pss }, w)
  | .Other s =>
    match getPssOrWarn m with
    | .fatal => none
    | .ok pss w =>
        some ({ ext with
          other_map := fun k => if k = s then ext.other_map k + pss else ext.other_map k }, w)
  | .Rollup =>
    match m.extMap.lookup "Rss" with
    | none => some (ext, 1)
    | some rss => if rss = 0 then some (ext, 1) else none

/-- The whole `for map in maps` loop: thread the accumulator through the
mappings, stopping at a `panic!`. -/
def processMaps (exe : String) : List MemoryMap → MemoryExt → Option MemoryExt × Nat
  | [], ext => (some ext, 0)
  | m :: ms, ext =>
    match processMap ext exe m with
    | none => (none, 0)
    | some (ext2, w) =>
        let r := processMaps exe ms ext2
        (r.1, w + r.2)

/-- Outcome of a whole classification run: `panic` for the process
abort, `fail e` for a propagated fatal error, `ok` for success. -/
inductive CycleResult (α : Type) where
  | panic
  | fail (e : ProcError)
  | ok (a : α)
deriving DecidableEq, Repr

/-- `ProcListing` of lib.rs. -/
structure ProcListing where
  pid : Int
  ppid : Int
  cmdline : String
  memory_ext : MemoryExt

/-- The per-process closure of `get_smaps`'s `filter_map`: filter the
`smaps()` read, then the `exe()` read, then classify every mapping.
`.ok none` is the dropped (skipped) process. -/
def processOneNode (n : ProcNode) (fail_on_noperm : Bool) :
    CycleResult (Option ProcListing) × Nat :=
  match filterErrors n.smapsResult fail_on_noperm with
  | (none, w) => (.ok none, w)
  | (some (.error e), w) => (.fail e, w)
  | (some (.ok maps), w1) =>
    match filterErrors n.exeResult fail_on_noperm with
    | (none, w2) => (.ok none, w1 + w2)
    | (some (.error e), w2) => (.fail e, w1 + w2)
    | (some (.ok exe), w2) =>
      match processMaps exe maps MemoryExt.new with
      | (none, w3) => (.panic, w1 + w2 + w3)
      | (some ext, w3) =>
          (.ok (some { pid := n.pid, ppid := n.ppid, cmdline := n.cmdline
                       memory_ext := ext }), w1 + w2 + w3)

/-- `get_smaps` of lib.rs: `filter_map` over the selected nodes,
collected into `ProcResult<Vec<_>>` (the first propagated error stops
the iteration), with the total warning count alongside. -/
def getSmaps : List ProcNode → Bool → CycleResult (List ProcListing) × Nat
  | [], _ => (.ok [], 0)
  | n :: rest, fail_on_noperm =>
    match processOneNode n fail_on_noperm with
    | (.panic, w) => (.panic, w)
    | (.fail e, w) => (.fail e, w)
    | (.ok none, w) =>
        let r := getSmaps rest fail_on_noperm
        (r.1, w + r.2)
    | (.ok (some l), w) =>
        let r := getSmaps rest fail_on_noperm
        match r.1 with
        | .ok ls => (.ok (l :: ls), w + r.2)
        | .fail e => (.fail e, w + r.2)
        | .panic => (.panic, w + r.2)

/-- A node survives `get_smaps`'s error filter (is neither dropped nor
the cause of a propagated error) when both its `smaps()` and `exe()`
reads come back `Ok` through `filter_errors`. -/
def keptNode (n : ProcNode) (fail_on_noperm : Bool) : Bool :=
  match (filterErrors n.smapsResult fail_on_noperm).1 with
  | some (.ok _) =>
    match (filterErrors n.exeResult fail_on_noperm).1 with
    | some (.ok _) => true
    | _ => false
  | _ => false

/-- The per-process closure of main.rs `get_processes`'s `filter_map`:
combine `stat()` and `cmdline()` (joined by folding with a leading
space) into one result, filter it, and build the node.  There is no
self-exclusion check in main.rs. -/
def mainEnumStep (pr : Except ProcError SourceProc) (fail_on_noperm : Bool) :
    Option (Except ProcError ProcNode) × Nat :=
  let combined : Except ProcError (Int × Int × String × SourceProc) :=
    pr.bind fun sp =>
      sp.statResult.bind fun stat =>
        sp.cmdlineResult.map fun c =>
          (stat.pid, stat.ppid, c.foldl (fun acc val => acc ++ " " ++ val) "", sp)
  match filterErrors combined fail_on_noperm with
  | (none, w) => (none, w)
  | (some (.error e), w) => (some (.error e), w)
  | (some (.ok (pid, ppid, cmdline, sp)), w) =>
      (some (.ok { pid, ppid, cmdline
                   smapsResult := sp.smapsResult, exeResult := sp.exeResult
                   children := [] }), w)

/-- The enumeration stage of main.rs `get_processes`, collected like
`libEnumerate`. -/
def mainEnumerate (prs : List (Except ProcError SourceProc))
    (fail_on_noperm : Bool) : Except ProcError (List ProcNode) × Nat :=
  match prs with
  | [] => (.ok [], 0)
  | pr :: rest =>
    match mainEnumStep pr fail_on_noperm with
    | (none, w) =>
        let r := mainEnumerate rest fail_on_noperm
        (r.1, w + r.2)
    | (some (.error e), w) => (.error e, w)
    | (some (.ok n), w) =>
        let r := mainEnumerate rest fail_on_noperm
        match r.1 with
        | .ok ns => (.ok (n :: ns), w + r.2)
        | .error e => (.error e, w + r.2)


/-! ## Theorems -/

/-- C1: the `Add` implementation on `MemoryExt` is *not* pointwise
addition of all twelve scalar fields and is *not* commutative: the
source computes `vsyscall_pss` as `self.vsyscall_pss + rhs.vvar_pss`
(lib.rs line 114).  Evaluating the embedded code at the failing input
`a = {vvar_pss := 1, ..0}`, `b = MemoryExt::new()`: `(a + b)` and
`(b + a)` disagree on `vsyscall_pss`, where pointwise addition would
give `0` for both. -/
theorem memoryExt_add_vsyscall_slip :
    (MemoryExt.add { MemoryExt.new with vvar_pss := 1 } MemoryExt.new).vsyscall_pss = 0 ∧
    (MemoryExt.add MemoryExt.new { MemoryExt.new with vvar_pss := 1 }).vsyscall_pss = 1 :=
  ⟨rfl, rfl⟩

/-- C10: the two near-duplicate `filter_errors` implementations
(lib.rs and main.rs) are behaviorally equivalent: same returned
decision and same warning count on every input result and
configuration flag. -/
theorem filter_errors_lib_main_equivalent :
    ∀ (α : Type) (r : Except ProcError α) (b : Bool),
      filterErrors r b = filterErrorsMain r b := by
  intro α r b
  rcases r with e | a
  · rcases e with p | p | p | ⟨m, p⟩ | m
    · rfl
    · rcases p with _ | p <;> rfl
    · rfl
    · rfl
    · rfl
  · rfl

/-- C3 (counterexample): a not-found error carrying no path
(`NotFound(None)`) falls into the catch-all arm of `filter_errors` and
is propagated (fatal) with no warning, under both configurations —
refuting "a not-found (target vanished) error is dropped with exactly
one warning under both configurations and never fatal". -/
theorem filter_errors_notFound_none_is_fatal :
    filterErrors (α := Unit) (.error (.notFound none)) false
      = (some (.error (.notFound none)), 0) ∧
    filterErrors (α := Unit) (.error (.notFound none)) true
      = (some (.error (.notFound none)), 0) :=
  ⟨rfl, rfl⟩

/-- C3 (amended): the error-filter policy of lib.rs: permission-denied
is propagated iff `fail_on_noperm` (dropped silently otherwise); a
not-found error *that carries the missing path* is dropped with exactly
one warning and is never fatal, so a process whose mapping table
vanished between selection and the read is absent from the output with
one warning and no fatal error; every other result — including a
not-found error carrying no path — is passed through unchanged with no
warning. -/
theorem filter_errors_policy (α : Type) :
    (∀ (e : Option String) (b : Bool),
        filterErrors (α := α) (.error (.permissionDenied e)) b =
          if b then (some (.error (.permissionDenied e)), 0) else (none, 0)) ∧
    (∀ (p : String) (b : Bool),
        filterErrors (α := α) (.error (.notFound (some p))) b = (none, 1)) ∧
    (∀ (r : Except ProcError α) (b : Bool),
        (∀ e, r ≠ .error (.permissionDenied e)) →
        (∀ p, r ≠ .error (.notFound (some p))) →
        filterErrors r b = (some r, 0)) ∧
    (∀ (pid ppid : Int) (cmdline : String) (exeR : Except ProcError String)
        (ch : List Nat) (p : String) (b : Bool),
        getSmaps [{ pid := pid, ppid := ppid, cmdline := cmdline
                    smapsResult := .error (.notFound (some p))
                    exeResult := exeR, children := ch }] b = (.ok [], 1)) := by
  refine ⟨fun e b => rfl, fun p b => rfl, ?_, fun pid ppid cmdline exeR ch p b => rfl⟩
  intro r b h1 h2
  rcases r with e | a
  · rcases e with p | p | p | ⟨m, p⟩ | m
    · exact absurd rfl (h1 p)
    · rcases p with _ | p
      · rfl
      · exact absurd rfl (h2 p)
    · rfl
    · rfl
    · rfl
  · rfl

/-- C3 (witness): the policy theorem applied at concrete inputs: an
`io` error is passed through, and a single-node cycle whose `smaps()`
read failed with `NotFound(Some(path))` yields an empty listing with
one warning and no fatal error. -/
theorem filter_errors_policy_witness :
    filterErrors (α := Unit) (.error (.io "boom" none)) false
      = (some (.error (.io "boom" none)), 0) ∧
    getSmaps [{ pid := 5, ppid := 1, cmdline := "proc"
                smapsResult := .error (.notFound (some "/proc/5/smaps"))
                exeResult := .ok "", children := [] }] false = (.ok [], 1) :=
  ⟨(filter_errors_policy Unit).2.2.1 (.error (.io "boom" none)) false
      (fun e h => by injection h with h; injection h)
      (fun p h => by injection h with h; injection h),
   (filter_errors_policy Unit).2.2.2 5 1 "proc" (.ok "") [] "/proc/5/smaps" false⟩

/-- A live process whose identity reads succeed, used to instantiate the
enumeration theorems; its pid is `7`. -/
def sampleProc : SourceProc :=
  { statResult := .ok { pid := 7, ppid := 1 }
    cmdlineResult := .ok ["prog"]
    smapsResult := .ok []
    exeResult := .ok "" }

/-- C8 (counterexample): when the caller's own pid is `7`, the lib.rs
enumeration without `match_self` drops the caller's process, but the
near-duplicate enumeration of main.rs (cited by the claim) has no
self-exclusion at all — it cannot even be told the caller's pid — and
produces a node for pid `7`.  So "enumeration excludes the caller's own
process unless inclusion of self is explicitly requested" fails for the
main.rs implementation. -/
theorem main_enumeration_keeps_caller :
    (libEnumerate [.ok sampleProc] 7 false false).1 = .ok [] ∧
    (mainEnumerate [.ok sampleProc] false).1 =
      .ok [{ pid := 7, ppid := 1, cmdline := " prog"
             smapsResult := .ok [], exeResult := .ok "", children := [] }] :=
  ⟨rfl, rfl⟩

/-- C8 (amended): the *library* enumeration (`try_from_process`)
excludes the caller's own process unless `match_self`/`convert_self` is
set, in which case it is converted like any other process; the
near-duplicate enumeration in main.rs has no self-exclusion flag and
converts every readable process, the caller's own included. -/
theorem enumeration_self_exclusion :
    (∀ (sp : SourceProc) (stat : Stat) (me : Int),
        sp.statResult = .ok stat → stat.pid = me →
        tryFromProcess sp me false = .ok none) ∧
    (∀ (sp : SourceProc) (stat : Stat) (cl : List String) (me : Int) (ms : Bool),
        sp.statResult = .ok stat → sp.cmdlineResult = .ok cl →
        (ms = true ∨ stat.pid ≠ me) →
        tryFromProcess sp me ms =
          .ok (some { pid := stat.pid, ppid := stat.ppid
                      cmdline := String.intercalate " " cl
                      smapsResult := sp.smapsResult, exeResult := sp.exeResult
                      children := [] })) ∧
    (∀ (sp : SourceProc) (stat : Stat) (cl : List String) (b : Bool),
        sp.statResult = .ok stat → sp.cmdlineResult = .ok cl →
        mainEnumStep (.ok sp) b =
          (some (.ok { pid := stat.pid, ppid := stat.ppid
                       cmdline := cl.foldl (fun acc val => acc ++ " " ++ val) ""
                       smapsResult := sp.smapsResult, exeResult := sp.exeResult
                       children := [] }), 0)) := by
  refine ⟨?_, ?_, ?_⟩
  · intro sp stat me hstat hpid
    simp [tryFromProcess, hstat, hpid]
  · intro sp stat cl me ms hstat hcl hor
    rcases hor with hms | hne
    · simp [tryFromProcess, hstat, hcl, hms]
    · simp [tryFromProcess, hstat, hcl, hne]
  · intro sp stat cl b hstat hcl
    simp [mainEnumStep, hstat, hcl, Except.bind, Except.map, filterErrors]

/-- C8 (witness): the amended theorem applied at `sampleProc` (pid 7):
with `me = 7` and no `match_self` the library conversion yields no
node; with `match_self` it yields the node; the main.rs step always
yields the node. -/
theorem enumeration_self_exclusion_witness :
    tryFromProcess sampleProc 7 false = .ok none ∧
    tryFromProcess sampleProc 7 true =
      .ok (some { pid := 7, ppid := 1, cmdline := "prog"
                  smapsResult := .ok [], exeResult := .ok "", children := [] }) ∧
    mainEnumStep (.ok sampleProc) false =
      (some (.ok { pid := 7, ppid := 1, cmdline := " prog"
                   smapsResult := .ok [], exeResult := .ok "", children := [] }), 0) :=
  ⟨enumeration_self_exclusion.1 sampleProc { pid := 7, ppid := 1 } 7 rfl rfl,
   enumeration_self_exclusion.2.1 sampleProc { pid := 7, ppid := 1 } ["prog"] 7 true
      rfl rfl (Or.inl rfl),
   enumeration_self_exclusion.2.2 sampleProc { pid := 7, ppid := 1 } ["prog"] false
      rfl rfl⟩

/-- Adding `0` onto one key of a keyed accumulator changes nothing. -/
theorem keyed_add_zero {κ : Type} [DecidableEq κ] (f : κ → Nat) (key : κ) :
    (fun k => if k = key then f k + 0 else f k) = f := by
  funext k
  split <;> rfl

/-- Same fact after `simp` has rewritten the guarded argument. -/
theorem keyed_update_self {κ : Type} [DecidableEq κ] (f : κ → Nat) (key : κ) :
    (fun k => if k = key then f key else f k) = f := by
  funext k
  split
  next h => rw [h]
  next h => rfl

/-- `get_pss_or_warn` panics exactly when `Pss` is absent while `Rss`
is present and nonzero. -/
theorem getPssOrWarn_eq_fatal_iff (m : MemoryMap) :
    getPssOrWarn m = .fatal ↔
      m.extMap.lookup "Pss" = none ∧
        ∃ rss, m.extMap.lookup "Rss" = some rss ∧ rss ≠ 0 := by
  unfold getPssOrWarn
  cases hp : m.extMap.lookup "Pss" with
  | some pss => simp
  | none =>
    cases hr : m.extMap.lookup "Rss" with
    | some rss =>
      by_cases h0 : rss = 0 <;> simp [h0]
    | none => simp

/-- With `Pss` absent and `Rss` zero or absent, `get_pss_or_warn`
resolves to `0` with exactly one warning. -/
theorem getPssOrWarn_fallback_zero (m : MemoryMap)
    (hp : m.extMap.lookup "Pss" = none)
    (hr : m.extMap.lookup "Rss" = some 0 ∨ m.extMap.lookup "Rss" = none) :
    getPssOrWarn m = .ok 0 1 := by
  unfold getPssOrWarn
  rcases hr with hr | hr <;> simp [hp, hr]

/-- A known-tag mapping whose PSS resolves to `0` with one warning
leaves the accumulator exactly unchanged and emits that one warning. -/
theorem processMap_contributes_zero (ext : MemoryExt) (exe : String) (m : MemoryMap)
    (ho : getPssOrWarn m = .ok 0 1) (hk : unknownTag m.pathname = false) :
    processMap ext exe m = some (ext, 1) := by
  obtain ⟨path, perms, em⟩ := m
  cases path with
  | Path p =>
    cases h1 : exe == p <;> cases h2 : perms.execute <;>
      simp [processMap, ho, h1, h2, keyed_add_zero, keyed_update_self]
  | Other s => simp [processMap, ho, keyed_add_zero, keyed_update_self]
  | Rollup => simp [unknownTag] at hk
  | _ => simp_all [processMap]

/-- For a mapping whose tag the classifier understands, the loop body
panics exactly when `get_pss_or_warn` does. -/
theorem processMap_known_none_iff (ext : MemoryExt) (exe : String) (m : MemoryMap)
    (hk : unknownTag m.pathname = false) :
    processMap ext exe m = none ↔ getPssOrWarn m = .fatal := by
  cases hg : getPssOrWarn m with
  | ok pss w =>
    cases hp : m.pathname <;> simp [processMap, hp, hg] <;> simp [hp, unknownTag] at hk
  | fatal =>
    cases hp : m.pathname <;> simp [processMap, hp, hg] <;> simp [hp, unknownTag] at hk

/-- For a mapping whose tag reaches the catch-all arm, the loop body
panics exactly when `Rss` is present and nonzero. -/
theorem processMap_rollup_none_iff (ext : MemoryExt) (exe : String) (m : MemoryMap)
    (hk : unknownTag m.pathname = true) :
    processMap ext exe m = none ↔
      ∃ rss, m.extMap.lookup "Rss" = some rss ∧ rss ≠ 0 := by
  cases hp : m.pathname
  case Rollup =>
    cases hr : m.extMap.lookup "Rss" with
    | none => simp [processMap, hp, hr]
    | some rss => by_cases h0 : rss = 0 <;> simp [processMap, hp, hr, h0]
  all_goals simp [unknownTag, hp] at hk

/-- A known-tag mapping whose PSS resolution succeeds is processed
without a panic and emits exactly the warnings of the resolution. -/
theorem processMap_known_exists (ext : MemoryExt) (exe : String) (m : MemoryMap)
    (pss w : Nat) (hg : getPssOrWarn m = .ok pss w)
    (hk : unknownTag m.pathname = false) :
    ∃ ext2, processMap ext exe m = some (ext2, w) := by
  cases hres : processMap ext exe m with
  | none =>
    have h2 := (processMap_known_none_iff ext exe m hk).mp hres
    rw [hg] at h2
    cases h2
  | some pr =>
    obtain ⟨ext2, w2⟩ := pr
    refine ⟨ext2, ?_⟩
    have hw : w = w2 := by
      cases hp : m.pathname
      case Rollup => simp [unknownTag, hp] at hk
      all_goals
        simp [processMap, hp, hg] at hres
        exact hres.2
    rw [hw]

/-- C2: the classifier's per-mapping PSS-resolution and classification
is fatal iff the mapping's `Rss` is present and nonzero while either
`Pss` is absent or the region tag is not understood; in the remaining
missing-field/unknown-tag cases (`Pss` absent with `Rss = 0`; `Pss` and
`Rss` both absent; unknown tag with `Rss = 0` or `Rss` absent) the
mapping contributes exactly nothing to the accumulator and exactly one
warning is emitted; and when `Pss` is present it is used directly
(`get_pss_or_warn` returns it with no warning) and a known-tag mapping
is processed with zero warnings. -/
theorem classifier_fatal_and_warning_policy (ext : MemoryExt) (exe : String)
    (m : MemoryMap) :
    (processMap ext exe m = none ↔
      ∃ rss, m.extMap.lookup "Rss" = some rss ∧ rss ≠ 0 ∧
        (m.extMap.lookup "Pss" = none ∨ unknownTag m.pathname = true)) ∧
    (m.extMap.lookup "Pss" = none → m.extMap.lookup "Rss" = some 0 →
      unknownTag m.pathname = false → processMap ext exe m = some (ext, 1)) ∧
    (m.extMap.lookup "Pss" = none → m.extMap.lookup "Rss" = none →
      unknownTag m.pathname = false → processMap ext exe m = some (ext, 1)) ∧
    (unknownTag m.pathname = true →
      (m.extMap.lookup "Rss" = some 0 ∨ m.extMap.lookup "Rss" = none) →
      processMap ext exe m = some (ext, 1)) ∧
    (∀ pss, m.extMap.lookup "Pss" = some pss →
      getPssOrWarn m = .ok pss 0 ∧
      (unknownTag m.pathname = false →
        ∃ ext2, processMap ext exe m = some (ext2, 0))) := by
  refine ⟨?_, ?_, ?_, ?_, ?_⟩
  · cases hk : unknownTag m.pathname
    · rw [processMap_known_none_iff ext exe m hk, getPssOrWarn_eq_fatal_iff]
      constructor
      · rintro ⟨hp, rss, hr, h0⟩
        exact ⟨rss, hr, h0, Or.inl hp⟩
      · rintro ⟨rss, hr, h0, hp | htag⟩
        · exact ⟨hp, rss, hr, h0⟩
        · cases htag
    · rw [processMap_rollup_none_iff ext exe m hk]
      constructor
      · rintro ⟨rss, hr, h0⟩
        exact ⟨rss, hr, h0, Or.inr rfl⟩
      · rintro ⟨rss, hr, h0, _⟩
        exact ⟨rss, hr, h0⟩
  · intro hp hr hk
    exact processMap_contributes_zero ext exe m
      (getPssOrWarn_fallback_zero m hp (Or.inl hr)) hk
  · intro hp hr hk
    exact processMap_contributes_zero ext exe m
      (getPssOrWarn_fallback_zero m hp (Or.inr hr)) hk
  · intro hk hr
    cases hp : m.pathname
    case Rollup => rcases hr with hr | hr <;> simp [processMap, hp, hr]
    all_goals simp [unknownTag, hp] at hk
  · intro pss hps
    have hg : getPssOrWarn m = .ok pss 0 := by
      unfold getPssOrWarn
      rw [hps]
    refine ⟨hg, fun hk => ?_⟩
    exact processMap_known_exists ext exe m pss 0 hg hk

/-- A mapping with `Pss` absent and `Rss = 0`, carrying a known tag. -/
def heapRssZeroMap : MemoryMap :=
  { pathname := .Heap
    perms := { read := true, write := true, execute := false, shared := false, priv := true }
    extMap := [("Rss", 0)] }

/-- A mapping with `Pss` present. -/
def heapPssMap : MemoryMap :=
  { pathname := .Heap
    perms := { read := true, write := true, execute := false, shared := false, priv := true }
    extMap := [("Pss", 4), ("Rss", 9)] }

/-- An unknown-tag (`Rollup`) mapping with `Rss` absent. -/
def rollupMap : MemoryMap :=
  { pathname := .Rollup
    perms := { read := false, write := false, execute := false, shared := false, priv := false }
    extMap := [] }

/-- C2 (witness): the policy theorem at concrete mappings: a heap
mapping with no `Pss` and `Rss = 0` contributes nothing with one
warning; a heap mapping with `Pss = 4` resolves to `4` with no warning;
a `Rollup` mapping without `Rss` contributes nothing with one
warning. -/
theorem classifier_fatal_and_warning_policy_witness :
    processMap MemoryExt.new "/bin/a" heapRssZeroMap = some (MemoryExt.new, 1) ∧
    getPssOrWarn heapPssMap = .ok 4 0 ∧
    processMap MemoryExt.new "/bin/a" rollupMap = some (MemoryExt.new, 1) :=
  ⟨(classifier_fatal_and_warning_policy MemoryExt.new "/bin/a" heapRssZeroMap).2.1
      rfl rfl rfl,
   ((classifier_fatal_and_warning_policy MemoryExt.new "/bin/a" heapPssMap).2.2.2.2
      4 rfl).1,
   (classifier_fatal_and_warning_policy MemoryExt.new "/bin/a" rollupMap).2.2.2.1
      rfl (Or.inr rfl)⟩

/-- C7: a file-backed mapping routes its entire resolved PSS into
exactly one of the four buckets `bin_text`/`bin_data`/`lib_text`/
`lib_data`, chosen by whether the mapping's path equals the process's
executable path (self vs. other) and whether its permission set
includes execute (text vs. data); every other scalar category is left
unchanged.  In particular a mapping whose path equals the executable
path with execute permission contributes entirely to `bin_text` and
nothing to the other three buckets. -/
theorem file_backed_bucket_routing (ext : MemoryExt) (exe p : String)
    (m : MemoryMap) (pss w : Nat)
    (hpath : m.pathname = .Path p)
    (hres : getPssOrWarn m = .ok pss w) :
    (∃ ext2, processMap ext exe m = some (ext2, w)) ∧
    (∀ ext2 w2, processMap ext exe m = some (ext2, w2) →
      ext2.bin_text_pss = ext.bin_text_pss +
        (if exe = p ∧ m.perms.execute = true then pss else 0) ∧
      ext2.bin_data_pss = ext.bin_data_pss +
        (if exe = p ∧ m.perms.execute = false then pss else 0) ∧
      ext2.lib_text_pss = ext.lib_text_pss +
        (if exe ≠ p ∧ m.perms.execute = true then pss else 0) ∧
      ext2.lib_data_pss = ext.lib_data_pss +
        (if exe ≠ p ∧ m.perms.execute = false then pss else 0) ∧
      ext2.stack_pss = ext.stack_pss ∧
      ext2.heap_pss = ext.heap_pss ∧
      ext2.thread_stack_pss = ext.thread_stack_pss ∧
      ext2.anon_map_pss = ext.anon_map_pss ∧
      ext2.vdso_pss = ext.vdso_pss ∧
      ext2.vvar_pss = ext.vvar_pss ∧
      ext2.vsyscall_pss = ext.vsyscall_pss ∧
      ext2.vsys_pss = ext.vsys_pss ∧
      ext2.other_map = ext.other_map) := by
  constructor
  · exact processMap_known_exists ext exe m pss w hres (by rw [hpath]; rfl)
  · intro ext2 w2 hpm
    by_cases h1 : exe = p <;> cases h2 : m.perms.execute <;>
      [ (have hb : (exe == p) = true := by simp [h1]);
        (have hb : (exe == p) = true := by simp [h1]);
        (have hb : (exe == p) = false := by simp [h1]);
        (have hb : (exe == p) = false := by simp [h1]) ] <;>
      simp [processMap, hpath, hres, hb, h2] at hpm <;>
      obtain ⟨hx, hw⟩ := hpm <;>
      subst hx <;>
      simp [h1, h2]

/-- A file-backed executable mapping whose path is the process's own
executable path, with `Pss = 6`. -/
def binTextMap : MemoryMap :=
  { pathname := .Path "/bin/app"
    perms := { read := true, write := false, execute := true, shared := false, priv := true }
    extMap := [("Pss", 6), ("Rss", 8)] }

/-- C7 (witness): the routing theorem at a concrete self-executable
mapping: all 6 bytes land in `bin_text_pss` and none in the other three
buckets. -/
theorem file_backed_bucket_routing_witness :
    ∃ ext2, processMap MemoryExt.new "/bin/app" binTextMap = some (ext2, 0) ∧
      ext2.bin_text_pss = 6 ∧ ext2.bin_data_pss = 0 ∧
      ext2.lib_text_pss = 0 ∧ ext2.lib_data_pss = 0 := by
  obtain ⟨hex, hall⟩ :=
    file_backed_bucket_routing MemoryExt.new "/bin/app" "/bin/app" binTextMap 6 0 rfl rfl
  obtain ⟨ext2, h⟩ := hex
  obtain ⟨hbt, hbd, hlt, hld, -⟩ := hall ext2 0 h
  refine ⟨ext2, h, ?_, ?_, ?_, ?_⟩
  · simpa using hbt
  · simpa using hbd
  · simpa using hlt
  · simpa using hld

/-- Shape of one `get_smaps` iteration: a skipped node is exactly a
node the filter did not keep, and a produced listing carries the node's
identity fields unchanged. -/
theorem processOneNode_shape (n : ProcNode) (b : Bool) (w : Nat) :
    (processOneNode n b = (.ok none, w) → keptNode n b = false) ∧
    (∀ l, processOneNode n b = (.ok (some l), w) →
      keptNode n b = true ∧ l.pid = n.pid ∧ l.ppid = n.ppid ∧ l.cmdline = n.cmdline) := by
  rcases hs : filterErrors n.smapsResult b with ⟨os, ws⟩
  cases os with
  | none => simp [processOneNode, keptNode, hs]
  | some r =>
    cases r with
    | error e => simp [processOneNode, keptNode, hs]
    | ok maps =>
      rcases he : filterErrors n.exeResult b with ⟨oe, we⟩
      cases oe with
      | none => simp [processOneNode, keptNode, hs, he]
      | some r2 =>
        cases r2 with
        | error e => simp [processOneNode, keptNode, hs, he]
        | ok exe =>
          rcases hm : processMaps exe maps MemoryExt.new with ⟨om, wm⟩
          cases om with
          | none => simp [processOneNode, keptNode, hs, he, hm]
          | some ext =>
            constructor
            · intro hc
              simp [processOneNode, hs, he, hm] at hc
            · intro l hc
              simp [processOneNode, hs, he, hm] at hc
              simp [keptNode, hs, he, ← hc.1]

/-- C9: when `get_smaps` returns successfully it produces exactly one
`ProcListing` per input node the error filter kept, in the same
relative order, and each listing carries its node's pid, parent pid and
command line unchanged. -/
theorem get_smaps_listing_shape (nodes : List ProcNode) (b : Bool)
    (ls : List ProcListing) (w : Nat)
    (h : getSmaps nodes b = (.ok ls, w)) :
    ls.map (fun l => (l.pid, l.ppid, l.cmdline)) =
      (nodes.filter (fun n => keptNode n b)).map
        (fun n => (n.pid, n.ppid, n.cmdline)) := by
  induction nodes generalizing ls w with
  | nil =>
    simp [getSmaps] at h
    simp [← h.1]
  | cons n rest ih =>
    simp only [getSmaps] at h
    rcases hp : processOneNode n b with ⟨o, w1⟩
    rw [hp] at h
    cases o with
    | panic => simp at h
    | fail e => simp at h
    | ok olisting =>
      cases olisting with
      | none =>
        rcases hr : getSmaps rest b with ⟨r1, r2⟩
        rw [hr] at h
        simp at h
        have hk := (processOneNode_shape n b w1).1 hp
        rw [List.filter_cons_of_neg (by simp [hk])]
        exact ih ls r2 (by rw [hr, h.1])
      | some l =>
        rcases hr : getSmaps rest b with ⟨r1, r2⟩
        rw [hr] at h
        cases r1 with
        | panic => simp at h
        | fail e => simp at h
        | ok ls2 =>
          simp at h
          obtain ⟨hk, hpid, hppid, hcmd⟩ := (processOneNode_shape n b w1).2 l hp
          rw [List.filter_cons_of_pos (by simp [hk])]
          rw [← h.1]
          simp [hpid, hppid, hcmd]
          exact ih ls2 r2 (by rw [hr])

/-- A selected node whose reads all succeed (`Pss = 4` heap mapping). -/
def listedNode : ProcNode :=
  { pid := 9, ppid := 2, cmdline := "daemon"
    smapsResult := .ok [heapPssMap], exeResult := .ok "/bin/app", children := [] }

/-- The listing `get_smaps` produces for `listedNode`. -/
def listedListing : ProcListing :=
  { pid := 9, ppid := 2, cmdline := "daemon"
    memory_ext := { MemoryExt.new with heap_pss := 4 } }

/-- C9 (witness): the shape theorem at a concrete successful run: the
one listing carries pid 9, ppid 2 and the command line unchanged. -/
theorem get_smaps_listing_shape_witness :
    [listedListing].map (fun l => (l.pid, l.ppid, l.cmdline)) =
      ([listedNode].filter (fun n => keptNode n false)).map
        (fun n => (n.pid, n.ppid, n.cmdline)) :=
  get_smaps_listing_shape [listedNode] false [listedListing] 0 rfl

/-- Total number of occurrences of index `j` across all `children`
lists of the tree. -/
def childrenCount : List ProcNode → Nat → Nat
  | [], _ => 0
  | n :: rest, j => n.children.count j + childrenCount rest j

/-- The `ppid` of the node at index `j`. -/
def ppidAt (tree : List ProcNode) (j : Nat) : Option Int :=
  (tree.get? j).map ProcNode.ppid

theorem modifyIdx_length {α : Type} (l : List α) (i : Nat) (f : α → α) :
    (modifyIdx l i f).length = l.length := by
  induction l generalizing i with
  | nil => rfl
  | cons x xs ih =>
    cases i with
    | zero => rfl
    | succ i2 => simp [modifyIdx, ih]

theorem get?_modifyIdx {α : Type} (l : List α) (i j : Nat) (f : α → α) :
    (modifyIdx l i f).get? j = if j = i then (l.get? j).map f else l.get? j := by
  induction l generalizing i j with
  | nil => simp [modifyIdx]
  | cons x xs ih =>
    cases i with
    | zero =>
      cases j with
      | zero => simp [modifyIdx]
      | succ j2 => simp [modifyIdx]
    | succ i2 =>
      cases j with
      | zero => simp [modifyIdx]
      | succ j2 => simpa [modifyIdx, List.get?_cons_succ] using ih i2 j2

theorem ppidAt_modify_push (tree : List ProcNode) (p idx j : Nat) :
    ppidAt (modifyIdx tree p (pushChild idx)) j = ppidAt tree j := by
  simp only [ppidAt, get?_modifyIdx]
  split
  · cases tree.get? j <;> simp [pushChild]
  · rfl

theorem childrenCount_modify_push (tree : List ProcNode) (p idx j : Nat)
    (hp : p < tree.length) :
    childrenCount (modifyIdx tree p (pushChild idx)) j =
      childrenCount tree j + (if idx = j then 1 else 0) := by
  induction tree generalizing p with
  | nil => simp at hp
  | cons x xs ih =>
    cases p with
    | zero =>
      by_cases hij : idx = j
      · subst hij
        simp [modifyIdx, childrenCount, pushChild, List.count_append]
        omega
      · have hji : ¬(j = idx) := fun h => hij h.symm
        simp [modifyIdx, childrenCount, pushChild, List.count_append,
          List.count_singleton', hji]
        exact hij
    | succ p2 =>
      have := ih p2 (by simpa using hp)
      simp [modifyIdx, childrenCount, this]
      omega

theorem procMapPairsAux_mem_lt (ns : List ProcNode) (start : Nat) (k : Int) (v : Nat)
    (hmem : (k, v) ∈ procMapPairsAux start ns) : v < start + ns.length := by
  induction ns generalizing start with
  | nil => simp [procMapPairsAux] at hmem
  | cons n rest ih =>
    simp only [procMapPairsAux, List.mem_cons] at hmem
    rcases hmem with h | h
    · injection h with h1 h2
      simp [h2]
    · have := ih (start + 1) h
      simp at this ⊢
      omega

theorem procMapPairsAux_mem_pid (ns : List ProcNode) (start : Nat) (k : Int) (v : Nat)
    (hmem : (k, v) ∈ procMapPairsAux start ns) : ∃ n ∈ ns, n.pid = k := by
  induction ns generalizing start with
  | nil => simp [procMapPairsAux] at hmem
  | cons n rest ih =>
    simp only [procMapPairsAux, List.mem_cons] at hmem
    rcases hmem with h | h
    · injection h with h1 h2
      exact ⟨n, by simp, h1.symm⟩
    · obtain ⟨n2, hn2, hp⟩ := ih (start + 1) h
      exact ⟨n2, by simp [hn2], hp⟩

theorem lookupLast_mem (l : List (Int × Nat)) (k : Int) (v : Nat)
    (h : lookupLast l k = some v) : (k, v) ∈ l := by
  induction l with
  | nil => simp [lookupLast] at h
  | cons kv rest ih =>
    obtain ⟨k1, v1⟩ := kv
    simp only [lookupLast] at h
    cases hr : lookupLast rest k with
    | some r =>
      rw [hr] at h
      injection h with h2
      subst h2
      exact List.mem_cons_of_mem _ (ih hr)
    | none =>
      rw [hr] at h
      by_cases hk : k1 == k
      · rw [if_pos hk] at h
        injection h with h2
        subst h2
        have : k1 = k := by simpa using hk
        subst this
        exact List.mem_cons_self _ _
      · rw [if_neg hk] at h
        cases h

theorem lookupLast_procMap_lt (nodes : List ProcNode) (k : Int) (v : Nat)
    (h : lookupLast (procMapPairs nodes) k = some v) : v < nodes.length := by
  have := procMapPairsAux_mem_lt nodes 0 k v (lookupLast_mem _ _ _ h)
  omega

theorem lookupLast_procMap_none (nodes : List ProcNode) (k : Int)
    (hmiss : ∀ n ∈ nodes, n.pid ≠ k) :
    lookupLast (procMapPairs nodes) k = none := by
  cases h : lookupLast (procMapPairs nodes) k with
  | none => rfl
  | some v =>
    obtain ⟨n, hn, hp⟩ := procMapPairsAux_mem_pid nodes 0 k v (lookupLast_mem _ _ _ h)
    exact absurd hp (hmiss n hn)

/-- Invariant of the linking loop: running the loop over index list `L`
adds each `j ∈ L` whose node's `ppid` is nonzero to exactly one
parent's `children`, and changes nothing else. -/
theorem linkAux_count (nodes : List ProcNode) (pm : Int → Option Nat)
    (hpm : ∀ k v, pm k = some v → v < nodes.length) :
    ∀ (L : List Nat) (tree tree2 : List ProcNode),
      tree.length = nodes.length →
      (∀ j, ppidAt tree j = ppidAt nodes j) →
      (∀ i ∈ L, i < nodes.length) →
      linkAux pm L tree = some tree2 →
      ∀ j, childrenCount tree2 j =
        childrenCount tree j +
          (if (ppidAt nodes j).getD 0 ≠ 0 then L.count j else 0) := by
  intro L
  induction L with
  | nil =>
    intro tree tree2 hlen hppid hL hlink j
    simp only [linkAux] at hlink
    injection hlink with h
    subst h
    simp
  | cons idx rest ih =>
    intro tree tree2 hlen hppid hL hlink j
    have hidx : idx < nodes.length := hL idx (by simp)
    cases hnode : tree.get? idx with
    | none =>
      rw [List.get?_eq_none] at hnode
      omega
    | some node =>
      simp only [linkAux, hnode] at hlink
      have hpid_idx : ppidAt nodes idx = some node.ppid := by
        rw [← hppid idx]
        unfold ppidAt
        rw [hnode]
        rfl
      by_cases hpp : node.ppid ≠ 0
      · rw [if_pos hpp] at hlink
        cases hpm2 : pm node.ppid with
        | none =>
          rw [hpm2] at hlink
          cases hlink
        | some p =>
          rw [hpm2] at hlink
          have hplt : p < nodes.length := hpm _ _ hpm2
          have hcount := ih (modifyIdx tree p (pushChild idx)) tree2
              (by rw [modifyIdx_length, hlen])
              (fun j2 => by rw [ppidAt_modify_push, hppid])
              (fun i hi => hL i (List.mem_cons_of_mem _ hi))
              hlink j
          rw [hcount, childrenCount_modify_push tree p idx j (by omega)]
          by_cases hij : idx = j
          · subst hij
            simp [hpid_idx, hpp, List.count_cons]
            omega
          · have hji : ¬(j = idx) := fun h => hij h.symm
            by_cases hc : (ppidAt nodes j).getD 0 ≠ 0 <;>
              simp [hc, hij, hji, List.count_cons]
      · rw [if_neg hpp] at hlink
        have hcount := ih tree tree2 hlen hppid
            (fun i hi => hL i (List.mem_cons_of_mem _ hi)) hlink j
        rw [hcount]
        by_cases hij : idx = j
        · subst hij
          push_neg at hpp
          simp [hpid_idx, hpp]
        · have hji : ¬(j = idx) := fun h => hij h.symm
          by_cases hc : (ppidAt nodes j).getD 0 ≠ 0 <;>
            simp [hc, hji, List.count_cons]

/-- A tree whose nodes all have empty `children` has no child
occurrences at all. -/
theorem childrenCount_of_empty (nodes : List ProcNode)
    (hempty : ∀ n ∈ nodes, n.children = []) (j : Nat) :
    childrenCount nodes j = 0 := by
  induction nodes with
  | nil => rfl
  | cons n rest ih =>
    simp only [childrenCount]
    rw [hempty n (by simp), ih (fun n2 h2 => hempty n2 (by simp [h2]))]
    rfl

/-- C4: after the tree-linking stage of `get_processes`, on a snapshot
with unique pids and initially empty `children`, the index of every
node whose parent pid is not the root sentinel `0` appears in exactly
one parent's `children` list, and the index of every node with parent
pid `0` appears in no `children` list. -/
theorem tree_link_forest (nodes tree : List ProcNode)
    (huniq : List.Pairwise (fun a b => a.pid ≠ b.pid) nodes)
    (hempty : ∀ n ∈ nodes, n.children = [])
    (hlink : link nodes = some tree) (j : Nat) (hj : j < nodes.length) :
    childrenCount tree j = if (ppidAt nodes j).getD 0 ≠ 0 then 1 else 0 := by
  have h := linkAux_count nodes (lookupLast (procMapPairs nodes))
      (fun k v hv => lookupLast_procMap_lt nodes k v hv)
      (List.range nodes.length) nodes tree rfl (fun _ => rfl)
      (fun i hi => List.mem_range.mp hi) hlink j
  have hone : (List.range nodes.length).count j = 1 :=
    List.count_eq_one_of_mem (List.nodup_range _) (List.mem_range.mpr hj)
  rw [h, childrenCount_of_empty nodes hempty j, hone]
  simp

/-- The enumerated three-process chain 1 ← 2 ← 3 of the spec scenario. -/
def demoNodes : List ProcNode :=
  [ { pid := 1, ppid := 0, cmdline := "one"
      smapsResult := .ok [], exeResult := .ok "", children := [] }
  , { pid := 2, ppid := 1, cmdline := "two"
      smapsResult := .ok [], exeResult := .ok "", children := [] }
  , { pid := 3, ppid := 2, cmdline := "three"
      smapsResult := .ok [], exeResult := .ok "", children := [] } ]

/-- The chain after linking: 0 → [1], 1 → [2]. -/
def demoLinked : List ProcNode :=
  [ { pid := 1, ppid := 0, cmdline := "one"
      smapsResult := .ok [], exeResult := .ok "", children := [1] }
  , { pid := 2, ppid := 1, cmdline := "two"
      smapsResult := .ok [], exeResult := .ok "", children := [2] }
  , { pid := 3, ppid := 2, cmdline := "three"
      smapsResult := .ok [], exeResult := .ok "", children := [] } ]

/-- C4 (witness): the forest theorem on the concrete chain: index 1
(parent pid 1 ≠ 0) appears in exactly one `children` list. -/
theorem tree_link_forest_witness :
    childrenCount demoLinked 1 = if (ppidAt demoNodes 1).getD 0 ≠ 0 then 1 else 0 :=
  tree_link_forest demoNodes demoLinked (by decide) (by decide) (by decide) 1 (by decide)

/-- If the linking loop completes, every listed index with a nonzero
`ppid` found its parent in the pid→index map. -/
theorem linkAux_resolves (pm : Int → Option Nat) :
    ∀ (L : List Nat) (tree tree2 : List ProcNode),
      linkAux pm L tree = some tree2 →
      ∀ idx ∈ L, ∀ node, tree.get? idx = some node → node.ppid ≠ 0 →
        (pm node.ppid).isSome := by
  intro L
  induction L with
  | nil =>
    intro tree tree2 hlink idx hmem
    simp at hmem
  | cons idx0 rest ih =>
    intro tree tree2 hlink idx hmem node hget hpp
    cases hnode0 : tree.get? idx0 with
    | none =>
      simp only [linkAux, hnode0] at hlink
      cases hlink
    | some node0 =>
      simp only [linkAux, hnode0] at hlink
      by_cases hpp0 : node0.ppid ≠ 0
      · rw [if_pos hpp0] at hlink
        cases hpm0 : pm node0.ppid with
        | none =>
          rw [hpm0] at hlink
          cases hlink
        | some p =>
          rw [hpm0] at hlink
          rcases List.mem_cons.mp hmem with heq | hmem2
          · subst heq
            rw [hnode0] at hget
            injection hget with hg
            subst hg
            rw [hpm0]
            rfl
          · by_cases hip : idx = p
            · refine ih _ _ hlink idx hmem2 (pushChild idx0 node) ?_ ?_
              · rw [get?_modifyIdx, if_pos hip, hget]
                rfl
              · simpa [pushChild] using hpp
            · refine ih _ _ hlink idx hmem2 node ?_ hpp
              rw [get?_modifyIdx, if_neg hip, hget]
      · rw [if_neg hpp0] at hlink
        rcases List.mem_cons.mp hmem with heq | hmem2
        · subst heq
          rw [hnode0] at hget
          injection hget with hg
          subst hg
          exact absurd hpp hpp0
        · exact ih _ _ hlink idx hmem2 node hget hpp

/-- C5: if some node's nonzero parent pid is not present in the
pid→index map, the whole linking stage aborts (the `panic!`, modelled
as `none`): it never skips the node silently and never returns an
incomplete tree. -/
theorem link_missing_parent_aborts (nodes : List ProcNode) (j : Nat) (node : ProcNode)
    (hget : nodes.get? j = some node) (hpp : node.ppid ≠ 0)
    (hmiss : ∀ n ∈ nodes, n.pid ≠ node.ppid) :
    link nodes = none := by
  cases hl : link nodes with
  | none => rfl
  | some tree =>
    have hj : j < nodes.length := by
      by_contra hge
      rw [List.get?_eq_none.mpr (by omega)] at hget
      cases hget
    have hres := linkAux_resolves (lookupLast (procMapPairs nodes))
        (List.range nodes.length) nodes tree hl j (List.mem_range.mpr hj) node hget hpp
    rw [lookupLast_procMap_none nodes node.ppid hmiss] at hres
    cases hres

/-- A snapshot in which pid 2's parent pid 5 is not present. -/
def orphanNodes : List ProcNode :=
  [ { pid := 1, ppid := 0, cmdline := "one"
      smapsResult := .ok [], exeResult := .ok "", children := [] }
  , { pid := 2, ppid := 5, cmdline := "two"
      smapsResult := .ok [], exeResult := .ok "", children := [] } ]

/-- C5 (witness): linking the orphan snapshot aborts. -/
theorem link_missing_parent_aborts_witness : link orphanNodes = none :=
  link_missing_parent_aborts orphanNodes 1
    { pid := 2, ppid := 5, cmdline := "two"
      smapsResult := .ok [], exeResult := .ok "", children := [] }
    (by decide) (by decide) (by decide)

/-- A fold whose step only ever grows the set contains its start. -/
theorem foldl_grow_subset {α : Type} (f : Finset ℕ → α → Finset ℕ)
    (hf : ∀ m x, m ⊆ f m x) :
    ∀ (l : List α) (m : Finset ℕ), m ⊆ l.foldl f m := by
  intro l
  induction l with
  | nil => intro m; exact Finset.Subset.refl m
  | cons c rest ih =>
    intro m
    exact (hf m c).trans (ih (f m c))

/-- A fold whose step only ever grows the set contains anything some
processed element unconditionally contributes. -/
theorem foldl_grow_mem {α : Type} (f : Finset ℕ → α → Finset ℕ)
    (hf : ∀ m x, m ⊆ f m x) (d : ℕ) :
    ∀ (l : List α) (x : α), x ∈ l → (∀ m, d ∈ f m x) →
      ∀ m, d ∈ l.foldl f m := by
  intro l
  induction l with
  | nil => intro x hx; simp at hx
  | cons c rest ih =>
    intro x hx hd m
    rcases List.mem_cons.mp hx with heq | hmem
    · subst heq
      exact foldl_grow_subset f hf rest (f m x) (hd m)
    · exact ih x hmem hd (f m c)

/-- `add_process_recursive` only grows the matched set. -/
theorem addProcessRecursive_superset (tree : List ProcNode) :
    ∀ (fuel : Nat) (m : Finset ℕ) (i : Nat), m ⊆ addProcessRecursive tree fuel m i := by
  intro fuel
  induction fuel with
  | zero => intro m i; exact Finset.subset_insert i m
  | succ fuel ih =>
    intro m i
    exact (Finset.subset_insert i m).trans
      (foldl_grow_subset _ (fun m2 x => ih m2 x) (childrenOf tree i) (insert i m))

/-- `add_process_recursive` inserts its seed. -/
theorem addProcessRecursive_mem_self (tree : List ProcNode) :
    ∀ (fuel : Nat) (m : Finset ℕ) (i : Nat), i ∈ addProcessRecursive tree fuel m i := by
  intro fuel
  cases fuel with
  | zero => intro m i; exact Finset.mem_insert_self i m
  | succ fuel =>
    intro m i
    exact foldl_grow_subset _ (fun m2 x => addProcessRecursive_superset tree fuel m2 x)
      (childrenOf tree i) (insert i m) (Finset.mem_insert_self i m)

/-- With enough fuel (any bound on a rank function that strictly
decreases along child edges), `add_process_recursive` reaches every
transitive descendant of its seed. -/
theorem addProcessRecursive_covers (tree : List ProcNode) (rank : Nat → Nat)
    (hrank : ∀ i j, ChildEdge tree i j → rank j < rank i) :
    ∀ (fuel i d : Nat) (m : Finset ℕ),
      Relation.ReflTransGen (ChildEdge tree) i d → rank i ≤ fuel →
      d ∈ addProcessRecursive tree fuel m i := by
  intro fuel
  induction fuel with
  | zero =>
    intro i d m hpath hr
    rcases Relation.ReflTransGen.cases_head hpath with heq | ⟨j, hij, hjd⟩
    · subst heq
      exact Finset.mem_insert_self i m
    · have := hrank i j hij
      omega
  | succ fuel ih =>
    intro i d m hpath hr
    rcases Relation.ReflTransGen.cases_head hpath with heq | ⟨j, hij, hjd⟩
    · subst heq
      exact addProcessRecursive_mem_self tree (fuel + 1) m i
    · have hrj : rank j ≤ fuel := by
        have := hrank i j hij
        omega
      exact foldl_grow_mem _ (fun m2 x => addProcessRecursive_superset tree fuel m2 x)
        d (childrenOf tree i) j hij (fun m2 => ih j d m2 hjd hrj) (insert i m)

/-- Pointwise comparison of two folds whose steps compare pointwise. -/
theorem foldl_subset_pointwise {α : Type} (f g : Finset ℕ → α → Finset ℕ)
    (hstep : ∀ s s2 x, s ⊆ s2 → f s x ⊆ g s2 x) :
    ∀ (l : List α) (s s2 : Finset ℕ), s ⊆ s2 → l.foldl f s ⊆ l.foldl g s2 := by
  intro l
  induction l with
  | nil => intro s s2 h; exact h
  | cons c rest ih =>
    intro s s2 h
    exact ih (f s c) (g s2 c) (hstep s s2 c h)

/-- The pattern of the three-process scenario: matches exactly the
cmdline of pid 2. -/
def demoPat : String → Bool := fun s => s == "two"

/-- C6: selection with `match_children` contains every directly-matched
node and every transitive descendant of a directly-matched node
(for any rank function witnessing that the linked tree is a forest),
and is a superset of the selection without `match_children`; on the
linked three-process chain with a pattern matching only pid 2, the
selected pids are `[2, 3]` with the flag and `[2]` without. -/
theorem selector_descendants_monotone (tree : List ProcNode) (pat : String → Bool) :
    (∀ (mc : Bool) (i : Nat) (node : ProcNode), tree.get? i = some node →
       pat node.cmdline = true → i ∈ getMatched tree pat mc) ∧
    (∀ (rank : Nat → Nat),
       (∀ i j, ChildEdge tree i j → rank j < rank i) →
       (∀ i, rank i ≤ tree.length) →
       ∀ (s : Nat) (node : ProcNode) (d : Nat), tree.get? s = some node →
         pat node.cmdline = true →
         Relation.ReflTransGen (ChildEdge tree) s d →
         d ∈ getMatched tree pat true) ∧
    getMatched tree pat false ⊆ getMatched tree pat true ∧
    ((selectProcesses demoNodes (some demoPat) true).map (List.map ProcNode.pid)
        = some [2, 3] ∧
     (selectProcesses demoNodes (some demoPat) false).map (List.map ProcNode.pid)
        = some [2]) := by
  have hgrow : ∀ (mc : Bool) (m : Finset ℕ) (p : Nat × ProcNode),
      m ⊆ (if pat p.2.cmdline then
            (if mc then addProcessRecursive tree tree.length m p.1 else insert p.1 m)
          else m) := by
    intro mc m p
    by_cases hp : pat p.2.cmdline
    · rw [if_pos hp]
      cases mc
      · simp only [Bool.false_eq_true, if_false]
        exact Finset.subset_insert p.1 m
      · simp only [if_true]
        exact addProcessRecursive_superset tree tree.length m p.1
    · rw [if_neg hp]
  have henum : ∀ (i : Nat) (node : ProcNode), tree.get? i = some node →
      (i, node) ∈ tree.enum := by
    intro i node hget
    rw [List.mk_mem_enum_iff_getElem?]
    rw [← List.get?_eq_getElem?]
    exact hget
  refine ⟨?_, ?_, ?_, by decide, by decide⟩
  · intro mc i node hget hpat
    unfold getMatched
    refine foldl_grow_mem _ (hgrow mc) i tree.enum (i, node) (henum i node hget)
      (fun m => ?_) ∅
    simp only [hpat, if_true]
    cases mc
    · simp only [Bool.false_eq_true, if_false]
      exact Finset.mem_insert_self i m
    · simp only [if_true]
      exact addProcessRecursive_mem_self tree tree.length m i
  · intro rank hrank hbound s node d hget hpat hdesc
    unfold getMatched
    refine foldl_grow_mem _ (hgrow true) d tree.enum (s, node) (henum s node hget)
      (fun m => ?_) ∅
    simp only [hpat, if_true]
    exact addProcessRecursive_covers tree rank hrank tree.length s d m hdesc (hbound s)
  · unfold getMatched
    refine foldl_subset_pointwise _ _ ?_ tree.enum ∅ ∅ (Finset.Subset.refl ∅)
    intro s s2 p hs
    by_cases hp : pat p.2.cmdline
    · simp only [hp, if_true]
      intro x hx
      rcases Finset.mem_insert.mp hx with heq | hmem
      · subst heq
        exact addProcessRecursive_mem_self tree tree.length s2 p.1
      · exact addProcessRecursive_superset tree tree.length s2 p.1 (hs hmem)
    · simp only [hp, if_false]
      exact hs

/-- C6 (witness): the selector theorem applied on the linked chain:
index 1 (the match) and index 2 (its child) are both selected with
`match_children`, via the concrete rank function `3 - i`. -/
theorem selector_descendants_monotone_witness :
    1 ∈ getMatched demoLinked demoPat true ∧
    2 ∈ getMatched demoLinked demoPat true := by
  have hrank : ∀ i j, ChildEdge demoLinked i j → 3 - j < 3 - i := by
    intro i j h
    match i with
    | 0 =>
      have : j = 1 := by simpa [ChildEdge, childrenOf, demoLinked] using h
      omega
    | 1 =>
      have : j = 2 := by simpa [ChildEdge, childrenOf, demoLinked] using h
      omega
    | 2 => simp [ChildEdge, childrenOf, demoLinked] at h
    | (n + 3) => simp [ChildEdge, childrenOf, demoLinked, List.get?] at h
  have hbound : ∀ i, 3 - i ≤ demoLinked.length := by
    intro i
    have : demoLinked.length = 3 := by decide
    omega
  constructor
  · exact (selector_descendants_monotone demoLinked demoPat).1 true 1
      { pid := 2, ppid := 1, cmdline := "two"
        smapsResult := .ok [], exeResult := .ok "", children := [2] } rfl rfl
  · exact (selector_descendants_monotone demoLinked demoPat).2.1
      (fun i => 3 - i) hrank hbound 1
      { pid := 2, ppid := 1, cmdline := "two"
        smapsResult := .ok [], exeResult := .ok "", children := [2] } 2 rfl rfl
      (Relation.ReflTransGen.single (show ChildEdge demoLinked 1 2 by
        unfold ChildEdge
        decide))
